import Mathlib

/-!
Shallow embedding of the arrival-time-calculator plugin core computations.

Python floats are modelled as rationals (`ℚ`), a possibly missing attribute as
`Option ℚ`, and a raised exception as an explicit error value.  Python
`round` (round half to even) is modelled exactly on `ℚ`.
-/

namespace ArrivalCalc

/-- Python 3 integer rounding of a rational: round half to even. -/
def pyRoundInt (q : ℚ) : ℤ :=
  if q - ⌊q⌋ < 1/2 then ⌊q⌋
  else if 1/2 < q - ⌊q⌋ then ⌊q⌋ + 1
  else if ⌊q⌋ % 2 = 0 then ⌊q⌋ else ⌊q⌋ + 1

/-- Python `round(q, p)` on rationals: round half to even at `p` decimal places. -/
def pyRound (q : ℚ) (p : ℕ) : ℚ :=
  (pyRoundInt (q * 10 ^ p) : ℚ) / 10 ^ p

/-- `kmh_to_mm` from src/graph_utils.py lines 73-77 (identical to
`SpeedManager.kmh_to_mm`, src/utils/speed_management.py lines 44-66):
`round(kmh * 1000 / 60, 2)`, km/h converted to meters/minute. -/
def kmh_to_mm (kmh : ℚ) : ℚ := pyRound (kmh * 1000 / 60) 2

/-- The highway tag of an edge: a single OSM tag or a list of tags. -/
inductive RoadTag where
  | single (tag : String)
  | multi (tags : List String)
deriving DecidableEq

/-- The `sp` lookup of src/graph_utils.py lines 112-136 together with the
default of `sp.get(road, s5)` (line 146).  The map in
src/utils/speed_management.py lines 139-169 is the same (its explicit
"other" entry also carries `s5`). -/
def speedOfTag (s1 s2 s3 s4 s5 : ℚ) : String → ℚ
  | "trunk" => s1
  | "trunk_link" => s1
  | "motorway" => s1
  | "motorway_link" => s1
  | "primary" => s2
  | "primary_link" => s2
  | "secondary" => s2
  | "secondary_link" => s2
  | "unclassified" => s2
  | "tertiary" => s3
  | "tertiary_link" => s3
  | "residential" => s3
  | "living_street" => s3
  | "road" => s4
  | "service" => s4
  | "track" => s4
  | "footway" => s5
  | "path" => s5
  | "pedestrian" => s5
  | "steps" => s5
  | "cycleway" => s5
  | "bridleway" => s5
  | "corridor" => s5
  | _ => s5

/-- Edge speed selection, src/graph_utils.py lines 142-146: a single tag is
looked up with default tier 5; a list of tags gets the arithmetic mean of the
per-tag tier speeds.  (Python would crash on an empty tag list; here the
empty mean is `0/0 = 0`, which never arises from OSM data.) -/
def edgeSpeed (s1 s2 s3 s4 s5 : ℚ) : RoadTag → ℚ
  | .single t => speedOfTag s1 s2 s3 s4 s5 t
  | .multi ts => (ts.map (speedOfTag s1 s2 s3 s4 s5)).sum / ts.length

/-- Travel-time assignment of one edge in src/graph_utils.py line 150:
`data[travel_time_field] = (length / speed) if (speed and length) else None`.
`none` models a missing `length` attribute; Python float truthiness is
"nonzero". -/
def travelTimeGU (speed : ℚ) (length : Option ℚ) : Option ℚ :=
  match length with
  | none => none
  | some l => if speed ≠ 0 ∧ l ≠ 0 then some (l / speed) else none

/-- Outcome of a Python expression that can raise. -/
inductive PyResult (α : Type) where
  | ok (val : α)
  | exn (msg : String)
deriving DecidableEq

/-- Travel-time assignment of one edge in
src/utils/speed_management.py lines 182-183: `weight = length/speed` with no
guard.  A missing length raises `TypeError`; a zero speed raises
`ZeroDivisionError`; a zero length yields the weight `0.0`. -/
def travelTimeSM (speed : ℚ) (length : Option ℚ) : PyResult ℚ :=
  match length with
  | none => .exn "TypeError"
  | some l => if speed = 0 then .exn "ZeroDivisionError" else .ok (l / speed)

/-- An input graph edge as read by `set_graph_travel_times`: endpoints plus
the `highway` and `length` attributes. -/
structure Edge where
  u : ℕ
  v : ℕ
  highway : RoadTag
  length : Option ℚ
deriving DecidableEq

/-- An edge after `set_graph_travel_times`: `maxspeed` and `travel_time`
attributes written (src/graph_utils.py lines 148-150). -/
structure WeightedEdge where
  u : ℕ
  v : ℕ
  maxspeed : ℚ
  travel_time : Option ℚ
deriving DecidableEq

/-- Weighting of a single edge by src/graph_utils.py lines 139-150. -/
def weightEdgeGU (s1 s2 s3 s4 s5 : ℚ) (e : Edge) : WeightedEdge :=
  let speed := edgeSpeed s1 s2 s3 s4 s5 e.highway
  { u := e.u, v := e.v, maxspeed := speed, travel_time := travelTimeGU speed e.length }

/-- `set_graph_travel_times` from src/graph_utils.py lines 80-150.  The
argument check of lines 98-99 accepts exactly the lists of 5 elements
(`isinstance(speeds, list)` is structural here); entry values are not
inspected.  `morph` models `morph_function` (line 106-109), applied to every
entry when present. -/
def set_graph_travel_times (speeds : List ℚ) (morph : Option (ℚ → ℚ))
    (G : List Edge) : Except String (List WeightedEdge) :=
  if speeds.length = 5 then
    let ms := match morph with
      | none => speeds
      | some f => speeds.map f
    let s1 := ms.getD 0 0
    let s2 := ms.getD 1 0
    let s3 := ms.getD 2 0
    let s4 := ms.getD 3 0
    let s5 := ms.getD 4 0
    .ok (G.map (weightEdgeGU s1 s2 s3 s4 s5))
  else
    .error "ValueError"

/-- The profile acceptance test shared by src/graph_utils.py lines 98-99 and
src/utils/speed_management.py lines 122-125: a list of exactly 5 elements. -/
def speedsProfileAccepted (speeds : List ℚ) : Bool := speeds.length == 5

/-- The spec notion of a valid profile (spec section 4.1): exactly 5
positive finite entries (finiteness is automatic on `ℚ`). -/
def specProfileValid (speeds : List ℚ) : Prop :=
  speeds.length = 5 ∧ ∀ s ∈ speeds, 0 < s

instance (speeds : List ℚ) : Decidable (specProfileValid speeds) := by
  unfold specProfileValid; infer_instance

/-! Nearest-node resolver, src/graph_utils.py lines 34-70. -/

/-- A graph node as seen by `find_nearest_node`: an id and the optional
`x`/`y` coordinate attributes. -/
structure Node where
  id : ℕ
  x : Option ℚ
  y : Option ℚ
deriving DecidableEq

/-- The per-node distance computed inside the loop of `find_nearest_node`
(src/graph_utils.py lines 46-64): `none` when the node lacks an `x` or `y`
attribute (line 50-51), otherwise the haversine distance `dist x y` to the
query point.  The haversine formula (Earth radius 6371000 m) is real
trigonometry and is kept abstract as `dist`; every theorem below holds for
an arbitrary `dist`, hence in particular for the haversine one. -/
def nodeDist (dist : ℚ → ℚ → ℚ) (n : Node) : Option ℚ :=
  match n.x, n.y with
  | some x, some y => some (dist x y)
  | _, _ => none

/-- The scan loop of `find_nearest_node`, src/graph_utils.py lines 45-68:
the accumulator is `none` while no node with coordinates has been seen,
then `some (min_dist, nearest_node)`; a strictly smaller distance replaces
the accumulator (line 66). -/
def scanNodes (dist : ℚ → ℚ → ℚ) : List Node → Option (ℚ × ℕ) → Option (ℚ × ℕ)
  | [], acc => acc
  | n :: rest, acc =>
    match nodeDist dist n with
    | none => scanNodes dist rest acc
    | some d =>
      match acc with
      | none => scanNodes dist rest (some (d, n.id))
      | some (m, i) =>
        if d < m then scanNodes dist rest (some (d, n.id))
        else scanNodes dist rest (some (m, i))

/-- `find_nearest_node` from src/graph_utils.py lines 34-70, returning the
id of the retained node (`None` when no node carries coordinates). -/
def find_nearest_node (dist : ℚ → ℚ → ℚ) (nodes : List Node) : Option ℕ :=
  (scanNodes dist nodes none).map Prod.snd

/-! Rank aggregation, src/algorithms/all_stations_response_algorithm.py. -/

/-- `fire_ranks` from src/algorithms/all_stations_response_algorithm.py
lines 143-150: rank name and required number of units. -/
def fireRanks : List (String × ℕ) :=
  [("1 ранг", 1), ("1-бис", 2), ("2 ранг", 3),
   ("3 ранг", 4), ("4 ранг", 5), ("5 ранг", 6)]

/-- Python `min` over a nonempty list (the empty case never reaches it in
the embedded code; `0` is a dead default). -/
def listMin : List ℚ → ℚ
  | [] => 0
  | x :: xs => xs.foldl min x

/-- Python `max` over a nonempty list (empty case is a dead default). -/
def listMax : List ℚ → ℚ
  | [] => 0
  | x :: xs => xs.foldl max x

/-- Arithmetic mean `sum(l) / len(l)` of a list. -/
def listAvg (l : List ℚ) : ℚ := l.sum / l.length

/-- Per-rank statistics, src/algorithms/all_stations_response_algorithm.py
lines 322-340: select all times when fewer are available than the rank
requires, else the first `units_count`; `none` models the float-infinity
placeholder branch for an empty selection. -/
def rankStats (allTimes : List ℚ) (unitsCount : ℕ) : Option (ℚ × ℚ × ℚ) :=
  let selected := if allTimes.length < unitsCount then allTimes
                  else allTimes.take unitsCount
  if 0 < selected.length then
    some (listMin selected, listMax selected, selected.sum / selected.length)
  else none

/-- The per-rank results dictionary of lines 321-340. -/
def rankResults (allTimes : List ℚ) : List (String × Option (ℚ × ℚ × ℚ)) :=
  fireRanks.map fun rn => (rn.1, rankStats allTimes rn.2)

/-- Overall per-target statistics, lines 342-349: the finite per-rank
minima/maxima/averages are collected (the not-equal-to-infinity test becomes dropping
`none`) and aggregated; `none` models the float-infinity fallback for an
empty collection. -/
def overallStats (allTimes : List ℚ) : Option ℚ × Option ℚ × Option ℚ :=
  let mins := (rankResults allTimes).filterMap fun r => r.2.map fun s => s.1
  let maxs := (rankResults allTimes).filterMap fun r => r.2.map fun s => s.2.1
  let avgs := (rankResults allTimes).filterMap fun r => r.2.map fun s => s.2.2
  ((if 0 < mins.length then some (listMin mins) else none),
   (if 0 < maxs.length then some (listMax maxs) else none),
   (if 0 < avgs.length then some (avgs.sum / avgs.length) else none))

/-- The classification of lines 368-375: compare the (unrounded) mean with
10 minutes; an absent mean yields no label. -/
def evaluation (mean : Option ℚ) : Option String :=
  match mean with
  | none => none
  | some m => if m ≤ 10 then some "удовлетворительно"
              else some "не удовлетворительно"

/-- One output feature of the all-stations algorithm (fields of lines
352-377, values rounded to 1 decimal where present). -/
structure OutFeature where
  object_id : ℕ
  ranks : List (String × Option (ℚ × ℚ × ℚ))
  arrival_time_min : Option ℚ
  arrival_time_max : Option ℚ
  arrival_time_mean : Option ℚ
  evaluation : Option String
deriving DecidableEq

/-- Processing of one object, src/algorithms/all_stations_response_algorithm.py
lines 301-379: collect the stations whose shortest-path result reaches the
node of the object (`arrivalOf s = none` models absence from the Dijkstra dictionary of station `s`), skip the object entirely when none does (lines
311-312), else sort ascending by time and aggregate. -/
def processObject (stations : List String) (arrivalOf : String → Option ℚ)
    (objId : ℕ) : Option OutFeature :=
  let stationTimes := stations.filterMap fun s =>
    (arrivalOf s).map fun t => (s, t)
  if stationTimes.length = 0 then none
  else
    let sorted := stationTimes.mergeSort fun a b => a.2 ≤ b.2
    let all_times := sorted.map Prod.snd
    let rr := rankResults all_times
    let ov := overallStats all_times
    some
      { object_id := objId
        ranks := rr.map fun r =>
          (r.1, r.2.map fun s => (pyRound s.1 1, pyRound s.2.1 1, pyRound s.2.2 1))
        arrival_time_min := ov.1.map (pyRound · 1)
        arrival_time_max := ov.2.1.map (pyRound · 1)
        arrival_time_mean := ov.2.2.map (pyRound · 1)
        evaluation := evaluation ov.2.2 }

/-! Route time/length summation, src/algorithms/nearest_fire_station_algorithm.py
lines 245-270 (an identical copy sits in
src/algorithms/response_time_routes_algorithm.py lines 190-215). -/

/-- The attributes of one parallel edge as read by
`sum_route_time_and_length`. -/
structure EdgeData where
  travel_time : Option ℚ
  length : Option ℚ
deriving DecidableEq

/-- Python `x or 0.0` on a possibly missing float (a stored `0.0` is falsy,
but `or` then still yields `0.0`, so `getD 0` is exact). -/
def optOrZero (x : Option ℚ) : ℚ := x.getD 0

/-- The inner loop of lines 252-260: scan the parallel edges of the hop keeping
the first strictly-smallest defined travel time together with its edge. -/
def bestEdgeGo : List EdgeData → Option (ℚ × EdgeData) → Option (ℚ × EdgeData)
  | [], acc => acc
  | ed :: rest, acc =>
    match ed.travel_time with
    | none => bestEdgeGo rest acc
    | some t =>
      match acc with
      | none => bestEdgeGo rest (some (t, ed))
      | some (bt, be) =>
        if t < bt then bestEdgeGo rest (some (t, ed))
        else bestEdgeGo rest (some (bt, be))

/-- `best_edge`/`best_time` after the scan of lines 252-260. -/
def bestEdge (data : List EdgeData) : Option (ℚ × EdgeData) :=
  bestEdgeGo data none

/-- Contribution of a single hop, lines 249-269: no edge data skips the hop
(line 250-251, contributing nothing); otherwise the minimal-time parallel
time and length of that edge, or — when no parallel edge carries a travel time —
the first edge (`next(iter(data.values()))`) with `or 0.0` defaults. -/
def hopContrib (data : List EdgeData) : ℚ × ℚ :=
  match data with
  | [] => (0, 0)
  | ed0 :: _ =>
    match bestEdge data with
    | none => (optOrZero ed0.travel_time, optOrZero ed0.length)
    | some (bt, be) => (bt, optOrZero be.length)

/-- `sum_route_time_and_length`, lines 245-270: total time and length over
the consecutive node pairs of the route. -/
def sum_route_time_and_length (g : ℕ → ℕ → List EdgeData) (route : List ℕ) :
    ℚ × ℚ :=
  (route.zip route.tail).foldl
    (fun acc uv =>
      let c := hopContrib (g uv.1 uv.2)
      (acc.1 + c.1, acc.2 + c.2))
    (0, 0)

/-! Nearest-station output feature, src/algorithms/nearest_fire_station_algorithm.py
lines 148-162 and 329-351. -/

/-- A QGIS attribute value: string or numeric. -/
inductive AttrVal where
  | str (s : String)
  | num (q : ℚ)
deriving DecidableEq

/-- The attribute list of an emitted feature of the nearest-station
algorithm: the own attributes of the source object are copied (lines 340-342),
then the five result attributes of lines 344-349 are set, with the rounding
of lines 333 and 346-349.  The schema of lines 149-154 declares exactly
these five added fields. -/
def nearestStationAttrs (objAttrs : List (String × AttrVal))
    (stationName : String) (bestTimeMin bestDistKm sx sy : ℚ) :
    List (String × AttrVal) :=
  objAttrs ++
    [("nearest_station", .str stationName),
     ("distance_km", .num (pyRound bestDistKm 2)),
     ("response_time_min", .num (pyRound bestTimeMin 2)),
     ("station_x", .num (pyRound sx 6)),
     ("station_y", .num (pyRound sy 6))]

/-! Arrival-time matrix, src/algorithms/arrival_time_matrix.py lines 286-299. -/

/-- The per-station column of the arrival-time matrix, lines 287-296: the
Dijkstra length dictionary of the station (`dij n = none` when node `n` is
unreachable), shifted by `DELAY_TIME` (`times = times + DELAY_TIME`,
line 290), then left-joined onto the node of each target.  `DELAY_TIME` is
imported from the genesis package, which is not part of this tree; it
enters the computation only additively, so it is kept as a parameter. -/
def atmTimes (DELAY_TIME : ℚ) (dij : ℕ → Option ℚ) (targets : List ℕ) :
    List (ℕ × Option ℚ) :=
  targets.map fun n => (n, (dij n).map fun t => t + DELAY_TIME)

/-! Shortest-path semantics for the single-edge scenario of the spec. -/

/-- A walk in the weighted multigraph using only traversable edges (those
whose `travel_time` is defined), accumulating the total travel time.  This
is the semantics of `nx.shortest_path_length` with the travel_time weight:
edges whose weight attribute is `None` are hidden from the relaxation. -/
inductive Walk (E : List WeightedEdge) : ℕ → ℕ → ℚ → Prop where
  | nil (a : ℕ) : Walk E a a 0
  | cons {c : ℕ} {w rest : ℚ} (e : WeightedEdge) (he : e ∈ E)
      (hw : e.travel_time = some w) (h : Walk E e.v c rest) :
      Walk E e.u c (w + rest)

/-- `t` is the shortest travel time from `a` to `b`: achieved by some walk
and a lower bound of every walk. -/
def shortestTime (E : List WeightedEdge) (a b : ℕ) (t : ℚ) : Prop :=
  Walk E a b t ∧ ∀ t', Walk E a b t' → t ≤ t'

/-- The single-edge graph of the spec scenario: one road of length 1000 m,
road class tier 3, from the station node 1 to the target node 2. -/
def singleEdgeGraph : List Edge :=
  [{ u := 1, v := 2, highway := .single "residential", length := some 1000 }]

/-! Helper lemmas. -/

theorem pyRoundInt_intCast (z : ℤ) : pyRoundInt (z : ℚ) = z := by
  unfold pyRoundInt
  rw [Int.floor_intCast]
  norm_num

theorem pyRound_int (z : ℤ) (p : ℕ) : pyRound (z : ℚ) p = z := by
  unfold pyRound
  have h : ((z : ℚ) * 10 ^ p) = ((z * 10 ^ p : ℤ) : ℚ) := by push_cast; ring
  rw [h, pyRoundInt_intCast]
  push_cast
  have hp : ((10 : ℚ) ^ p) ≠ 0 := by positivity
  field_simp

/-! C5: profile validation. -/

/-- C5 (amended): `set_graph_travel_times` raises exactly when the supplied
profile list does not have 5 entries; the values of the entries (positivity,
finiteness) are not validated, so every 5-entry profile — positive or not —
is accepted, and in particular every profile of 5 positive finite entries
does not raise. -/
theorem C5_thm (speeds : List ℚ) (morph : Option (ℚ → ℚ)) (G : List Edge) :
    ((∃ out, set_graph_travel_times speeds morph G = .ok out) ↔
      speeds.length = 5) ∧
    (speedsProfileAccepted speeds = true ↔ speeds.length = 5) ∧
    (specProfileValid speeds →
      ∃ out, set_graph_travel_times speeds morph G = .ok out) := by
  have hmain : (∃ out, set_graph_travel_times speeds morph G = .ok out) ↔
      speeds.length = 5 := by
    unfold set_graph_travel_times
    by_cases h : speeds.length = 5
    · simp [h]
    · simp [h]
  refine ⟨hmain, ?_, fun hv => hmain.mpr hv.1⟩
  simp [speedsProfileAccepted]

/-- C5 counterexample: the all-zero 5-entry profile has no positive entry,
so by the claim `set_graph_travel_times` should raise InvalidProfile on it;
the validation only counts entries, accepts it, and does not raise. -/
theorem C5_counterexample :
    ¬ specProfileValid [0, 0, 0, 0, 0] ∧
    speedsProfileAccepted [0, 0, 0, 0, 0] = true ∧
    ∃ out, set_graph_travel_times [0, 0, 0, 0, 0] none [] = Except.ok out := by
  refine ⟨by decide, by decide, ⟨[], rfl⟩⟩

/-- C5 witness: the default profile of 5 positive entries is accepted. -/
theorem C5_witness :
    ∃ out, set_graph_travel_times [49, 37, 26, 16, 5] none [] = Except.ok out :=
  (C5_thm [49, 37, 26, 16, 5] none []).2.2 (by decide)

/-! C1: travel-time assignment. -/

/-- C1 (amended): in `graph_utils.set_graph_travel_times` every edge gets
travel time `length / speed` exactly when both the length and the selected
tier speed are nonzero; the field stays `none` (excluded) when the length is
missing or zero or the speed is zero, and `some 0` is never assigned.  The
`SpeedManager.set_graph_travel_times` variant instead divides
unconditionally, so it assigns the travel time `0` to a zero-length edge. -/
theorem C1_thm (speeds : List ℚ) (h5 : speeds.length = 5)
    (_hpos : ∀ s ∈ speeds, 0 < s) (G : List Edge) :
    set_graph_travel_times speeds none G =
      .ok (G.map (weightEdgeGU (speeds.getD 0 0) (speeds.getD 1 0)
        (speeds.getD 2 0) (speeds.getD 3 0) (speeds.getD 4 0))) ∧
    (∀ q1 q2 q3 q4 q5 : ℚ, ∀ e : Edge,
      (weightEdgeGU q1 q2 q3 q4 q5 e).travel_time =
        travelTimeGU (edgeSpeed q1 q2 q3 q4 q5 e.highway) e.length) ∧
    (∀ s l : ℚ, s ≠ 0 → l ≠ 0 → travelTimeGU s (some l) = some (l / s)) ∧
    (∀ s : ℚ, travelTimeGU s none = none ∧ travelTimeGU s (some 0) = none ∧
      travelTimeGU 0 (some s) = none) ∧
    (∀ (s : ℚ) (len : Option ℚ), travelTimeGU s len ≠ some 0) ∧
    (∀ s l : ℚ, s ≠ 0 → travelTimeSM s (some l) = .ok (l / s)) := by
  refine ⟨?_, fun q1 q2 q3 q4 q5 e => rfl, ?_, ?_, ?_, ?_⟩
  · unfold set_graph_travel_times
    rw [if_pos h5]
  · intro s l hs hl
    simp [travelTimeGU, hs, hl]
  · intro s
    refine ⟨rfl, by simp [travelTimeGU], by simp [travelTimeGU]⟩
  · intro s len
    match len with
    | none => simp [travelTimeGU]
    | some l =>
      simp only [travelTimeGU]
      split_ifs with h
      · simp [div_eq_zero_iff, h.1, h.2]
      · simp
  · intro s l hs
    simp [travelTimeSM, hs]

/-- C1 counterexample: a zero-length edge of tier 1 (tag trunk, positive
tier speed 500 m/min) gets the travel time `0` assigned by the
SpeedManager variant, although the claim says the field is never `0`. -/
theorem C1_counterexample :
    travelTimeSM (edgeSpeed 500 400 300 200 100 (RoadTag.single "trunk"))
      (some 0) = PyResult.ok 0 := by
  have h : edgeSpeed 500 400 300 200 100 (RoadTag.single "trunk") = 500 := rfl
  rw [h]
  norm_num [travelTimeSM]

/-- C1 witness: the graph_utils weighting on the single-edge graph with an
all-positive profile in meters/minute. -/
theorem C1_witness :
    set_graph_travel_times [500, 400, 300, 200, 100] none singleEdgeGraph =
      Except.ok [WeightedEdge.mk 1 2 300 (some (10/3))] := by
  have h := (C1_thm [500, 400, 300, 200, 100] (by rfl)
    (by decide) singleEdgeGraph).1
  rw [h]
  norm_num [singleEdgeGraph, weightEdgeGU, edgeSpeed, speedOfTag, travelTimeGU]

/-! C9: arrival-time matrix delay. -/

/-- C9: every arrival time written by the matrix algorithm is the Dijkstra
shortest-path time from the station node plus the constant `DELAY_TIME`,
added uniformly to all entries, and a written time equals the raw
shortest-path time exactly when that constant is zero. -/
theorem C9_thm (d : ℚ) (dij : ℕ → Option ℚ) (targets : List ℕ) :
    (∀ n t, (n, some t) ∈ atmTimes d dij targets →
      ∃ t0, dij n = some t0 ∧ t = t0 + d) ∧
    (∀ n ∈ targets, ∀ t0, dij n = some t0 →
      (n, some (t0 + d)) ∈ atmTimes d dij targets) ∧
    (∀ t0 : ℚ, t0 + d = t0 ↔ d = 0) := by
  refine ⟨?_, ?_, fun t0 => add_right_eq_self⟩
  · intro n t h
    simp only [atmTimes, List.mem_map, Prod.mk.injEq] at h
    obtain ⟨a, ha, h1, h2⟩ := h
    subst h1
    cases hd : dij a with
    | none => rw [hd] at h2; simp at h2
    | some t0 =>
      rw [hd] at h2
      simp only [Option.map_some', Option.some.injEq] at h2
      exact ⟨t0, rfl, h2.symm⟩
  · intro n hn t0 h
    simp only [atmTimes, List.mem_map]
    exact ⟨n, hn, by rw [h]; rfl⟩

/-- C9 witness: with delay 2, a target at raw time 7 is written as 9. -/
theorem C9_witness :
    (5, some (9 : ℚ)) ∈
      atmTimes 2 (fun n => if n = 5 then some 7 else none) [5] := by
  have h := (C9_thm 2 (fun n => if n = 5 then some 7 else none) [5]).2.1
    5 (by simp) 7 (by simp)
  norm_num at h
  exact h

/-! C8: nearest-station output has no classification bands. -/

/-- C8 (amended): the nearest-station variant produces no classification at
all — an emitted feature carries exactly the copied object attributes plus
nearest_station, distance_km, response_time_min, station_x and station_y,
and in particular no evaluation field; the best time is written unbucketed
(rounded to 2 decimals). -/
theorem C8_thm (objAttrs : List (String × AttrVal))
    (hobj : "evaluation" ∉ objAttrs.map Prod.fst)
    (name : String) (t dkm sx sy : ℚ) :
    (nearestStationAttrs objAttrs name t dkm sx sy).map Prod.fst =
      objAttrs.map Prod.fst ++
        ["nearest_station", "distance_km", "response_time_min",
         "station_x", "station_y"] ∧
    "evaluation" ∉ (nearestStationAttrs objAttrs name t dkm sx sy).map Prod.fst := by
  constructor
  · simp [nearestStationAttrs]
  · simp [nearestStationAttrs, hobj]

/-- C8 counterexample: for an object whose best arrival time is 3 minutes —
inside the claimed excellent band (at most 5) — the emitted attributes are
exactly the five plain result attributes: no band label and no
classification field is produced. -/
theorem C8_counterexample :
    (3 : ℚ) ≤ 5 ∧
    nearestStationAttrs [] "ПЧ-1" 3 2 30 50 =
      [("nearest_station", AttrVal.str "ПЧ-1"), ("distance_km", AttrVal.num 2),
       ("response_time_min", AttrVal.num 3), ("station_x", AttrVal.num 30),
       ("station_y", AttrVal.num 50)] ∧
    "evaluation" ∉ (nearestStationAttrs [] "ПЧ-1" 3 2 30 50).map Prod.fst := by
  have e2 : pyRound (2 : ℚ) 2 = 2 := by exact_mod_cast pyRound_int 2 2
  have e3 : pyRound (3 : ℚ) 2 = 3 := by exact_mod_cast pyRound_int 3 2
  have e30 : pyRound (30 : ℚ) 6 = 30 := by exact_mod_cast pyRound_int 30 6
  have e50 : pyRound (50 : ℚ) 6 = 50 := by exact_mod_cast pyRound_int 50 6
  refine ⟨by norm_num, ?_, by simp [nearestStationAttrs]⟩
  simp [nearestStationAttrs, e2, e3, e30, e50]

/-- C8 witness: attribute keys of an emitted feature with one copied object
attribute. -/
theorem C8_witness :
    (nearestStationAttrs [("name", AttrVal.str "obj")] "ПЧ-2" 12 4 10 20).map
        Prod.fst =
      ["name", "nearest_station", "distance_km", "response_time_min",
       "station_x", "station_y"] := by
  have h := (C8_thm [("name", AttrVal.str "obj")] (by simp) "ПЧ-2" 12 4 10 20).1
  simpa using h

/-! Rank aggregation lemmas. -/

theorem rankStats_take (l : List ℚ) (k : ℕ) (hne : l ≠ []) (hk : 1 ≤ k) :
    rankStats l k =
      some (listMin (l.take k), listMax (l.take k), listAvg (l.take k)) := by
  have htake : (if l.length < k then l else l.take k) = l.take k := by
    by_cases h : l.length < k
    · rw [if_pos h, List.take_of_length_le (le_of_lt h)]
    · rw [if_neg h]
  have hlen : 0 < (l.take k).length := by
    rw [List.length_take]
    exact lt_min hk (List.length_pos.mpr hne)
  simp only [rankStats, htake, if_pos hlen, listAvg]

theorem rankStats_ne_none (l : List ℚ) (k : ℕ) (hne : l ≠ []) (hk : 1 ≤ k) :
    rankStats l k ≠ none := by
  rw [rankStats_take l k hne hk]
  simp

theorem take_min_length (l : List ℚ) (k : ℕ) :
    l.take (min k l.length) = l.take k := by
  by_cases h : k ≤ l.length
  · rw [min_eq_left h]
  · rw [min_eq_right (le_of_not_le h), List.take_length,
      List.take_of_length_le (le_of_not_le h)]

/-! C2: per-rank statistics. -/

/-- C2: for every nonempty ascending-sorted list of available times and
every configured rank requiring `k` units, the per-rank statistics are the
min, max and average over exactly the first `min k count` entries of the
list — no error and no padded values, also when fewer stations are
available than the rank requires. -/
theorem C2_thm (times : List ℚ) (hne : times ≠ [])
    (_hsorted : times.Sorted (· ≤ ·)) (name : String) (k : ℕ)
    (hk : (name, k) ∈ fireRanks) :
    rankStats times k =
      some (listMin (times.take (min k times.length)),
            listMax (times.take (min k times.length)),
            (times.take (min k times.length)).sum /
              ((times.take (min k times.length)).length : ℚ)) := by
  have h1 : 1 ≤ k := by
    simp only [fireRanks, List.mem_cons, List.not_mem_nil, or_false,
      Prod.mk.injEq] at hk
    rcases hk with ⟨-, rfl⟩ | ⟨-, rfl⟩ | ⟨-, rfl⟩ | ⟨-, rfl⟩ | ⟨-, rfl⟩ | ⟨-, rfl⟩ <;>
      norm_num
  rw [take_min_length]
  exact rankStats_take times k hne h1

/-- C2 witness: a target reachable from only 2 stations while rank 3 ранг
requires 4 units — the stats equal the min, max and average of exactly
those 2 times, with no error and no padding. -/
theorem C2_witness : rankStats [4, 9] 4 = some (4, 9, 13/2) := by
  have h := C2_thm [4, 9] (by decide) (by decide) "3 ранг" 4 (by decide)
  rw [h]
  norm_num [listMin, listMax, min_def]

/-! C4: overall statistics and classification. -/

/-- C4: for every target with at least one available time, the overall
statistics are the minimum of the six per-rank minimums, the maximum of
the six per-rank maximums and the arithmetic mean of the six per-rank
averages (a mean of means, not a mean over individual station times);
the label is удовлетворительно (satisfactory) exactly when the mean is at
most 10 and не удовлетворительно (unsatisfactory) otherwise, while an
absent mean yields no label. -/
theorem C4_thm (times : List ℚ) (hne : times ≠ []) :
    overallStats times =
      (some (listMin [listMin (times.take 1), listMin (times.take 2),
          listMin (times.take 3), listMin (times.take 4),
          listMin (times.take 5), listMin (times.take 6)]),
       some (listMax [listMax (times.take 1), listMax (times.take 2),
          listMax (times.take 3), listMax (times.take 4),
          listMax (times.take 5), listMax (times.take 6)]),
       some (listAvg [listAvg (times.take 1), listAvg (times.take 2),
          listAvg (times.take 3), listAvg (times.take 4),
          listAvg (times.take 5), listAvg (times.take 6)])) ∧
    (∀ m : ℚ, evaluation (some m) =
      some (if m ≤ 10 then "удовлетворительно" else "не удовлетворительно")) ∧
    evaluation none = none := by
  refine ⟨?_, fun m => by simp [evaluation, apply_ite], rfl⟩
  have h1 := rankStats_take times 1 hne (by norm_num)
  have h2 := rankStats_take times 2 hne (by norm_num)
  have h3 := rankStats_take times 3 hne (by norm_num)
  have h4 := rankStats_take times 4 hne (by norm_num)
  have h5 := rankStats_take times 5 hne (by norm_num)
  have h6 := rankStats_take times 6 hne (by norm_num)
  simp only [overallStats, rankResults, fireRanks, List.map_cons, List.map_nil,
    h1, h2, h3, h4, h5, h6, List.filterMap, Option.map_some']
  norm_num [listAvg]

/-- C4 witness: a single available time of 3 minutes gives overall stats
3/3/3 and the satisfactory label. -/
theorem C4_witness :
    overallStats [3] = (some 3, some 3, some 3) ∧
    evaluation (some 3) = some "удовлетворительно" := by
  have h := C4_thm [3] (by decide)
  constructor
  · rw [h.1]
    norm_num [listMin, listMax, listAvg, List.take]
  · rw [h.2.1 3]
    norm_num

/-! C10: emission of output features. -/

/-- C10: the all-stations aggregation emits a feature for an object exactly
when at least one station reaches its node; an object reachable from zero
stations is silently omitted (no feature at all), and every emitted
feature carries all six per-rank statistics non-null — in particular at
least one. -/
theorem C10_thm (stations : List String) (arrivalOf : String → Option ℚ)
    (objId : ℕ) :
    (processObject stations arrivalOf objId = none ↔
      ∀ s ∈ stations, arrivalOf s = none) ∧
    (∀ f, processObject stations arrivalOf objId = some f →
      f.ranks.length = 6 ∧ ∀ r ∈ f.ranks, r.2 ≠ none) := by
  have key : (stations.filterMap fun s => (arrivalOf s).map fun t => (s, t)) = []
      ↔ ∀ s ∈ stations, arrivalOf s = none := by
    rw [List.filterMap_eq_nil_iff]
    constructor
    · intro h s hs
      have hm := h s hs
      rwa [Option.map_eq_none'] at hm
    · intro h s hs
      rw [h s hs]
      rfl
  by_cases h0 :
      (stations.filterMap fun s => (arrivalOf s).map fun t => (s, t)).length = 0
  · have hemp := List.length_eq_zero.mp h0
    constructor
    · simp only [processObject, if_pos h0]
      exact iff_of_true trivial (key.mp hemp)
    · intro f hf
      simp only [processObject, if_pos h0] at hf
      exact absurd hf (by simp)
  · have hne : (stations.filterMap fun s => (arrivalOf s).map fun t => (s, t)) ≠ [] := by
      intro hc
      exact h0 (by rw [hc]; rfl)
    constructor
    · simp only [processObject, if_neg h0]
      refine iff_of_false (by simp) ?_
      intro hall
      exact hne (key.mpr hall)
    · intro f hf
      simp only [processObject, if_neg h0, Option.some.injEq] at hf
      subst hf
      have hat : ((stations.filterMap fun s =>
          (arrivalOf s).map fun t => (s, t)).mergeSort
            (fun a b => a.2 ≤ b.2)).map Prod.snd ≠ [] := by
        intro hc
        have hlen := congrArg List.length hc
        simp only [List.length_map, List.length_mergeSort, List.length_nil] at hlen
        exact h0 hlen
      constructor
      · simp [rankResults, fireRanks]
      · intro r hr
        simp only [rankResults, List.map_map, List.mem_map] at hr
        obtain ⟨rn, hrn, hr2⟩ := hr
        have hk : 1 ≤ rn.2 := by
          have : ∀ p ∈ fireRanks, 1 ≤ p.2 := by decide
          exact this rn hrn
        subst hr2
        simp only [Function.comp_apply, ne_eq, Option.map_eq_none']
        exact rankStats_ne_none _ rn.2 hat hk

/-- C10 witness: an object reached by no station is omitted entirely. -/
theorem C10_witness : processObject ["ПЧ-1"] (fun _ => none) 3 = none :=
  (C10_thm ["ПЧ-1"] (fun _ => none) 3).1.mpr (fun _ _ => rfl)

/-! Parallel-edge selection lemmas. -/

theorem bestEdgeGo_eq_none_iff (l : List EdgeData) :
    ∀ acc, bestEdgeGo l acc = none ↔
      acc = none ∧ ∀ ed ∈ l, ed.travel_time = none := by
  induction l with
  | nil => intro acc; simp [bestEdgeGo]
  | cons ed rest ih =>
    intro acc
    cases htt : ed.travel_time with
    | none =>
      simp only [bestEdgeGo, htt, ih, List.mem_cons]
      constructor
      · rintro ⟨h1, h2⟩
        exact ⟨h1, fun e he => he.elim (fun h => h ▸ htt) (h2 e)⟩
      · rintro ⟨h1, h2⟩
        exact ⟨h1, fun e he => h2 e (Or.inr he)⟩
    | some t =>
      cases acc with
      | none =>
        simp only [bestEdgeGo, htt, ih]
        constructor
        · rintro ⟨h1, -⟩
          exact absurd h1 (by simp)
        · rintro ⟨-, h2⟩
          have hx := h2 ed (List.mem_cons_self _ _)
          rw [htt] at hx
          cases hx
      | some mi =>
        obtain ⟨bt, be⟩ := mi
        simp only [bestEdgeGo, htt]
        by_cases hlt : t < bt
        · rw [if_pos hlt]
          simp [ih]
        · rw [if_neg hlt]
          simp [ih]

theorem bestEdgeGo_some (l : List EdgeData) :
    ∀ acc t ed, bestEdgeGo l acc = some (t, ed) →
      (acc = some (t, ed) ∨ (ed ∈ l ∧ ed.travel_time = some t)) ∧
      (∀ ed2 ∈ l, ∀ t2, ed2.travel_time = some t2 → t ≤ t2) ∧
      (∀ bt be, acc = some (bt, be) → t ≤ bt) := by
  induction l with
  | nil =>
    intro acc t ed h
    refine ⟨Or.inl h, by simp, ?_⟩
    intro bt be hacc
    rw [hacc] at h
    cases h
    rfl
  | cons e0 rest ih =>
    intro acc t ed h
    cases htt : e0.travel_time with
    | none =>
      rw [bestEdgeGo, htt] at h
      obtain ⟨hmem, hbound, hacc⟩ := ih acc t ed h
      refine ⟨?_, ?_, hacc⟩
      · rcases hmem with h1 | ⟨h1, h2⟩
        · exact Or.inl h1
        · exact Or.inr ⟨List.mem_cons_of_mem _ h1, h2⟩
      · intro e2 he2 t2 ht2
        rcases List.mem_cons.mp he2 with rfl | he2
        · rw [htt] at ht2; cases ht2
        · exact hbound e2 he2 t2 ht2
    | some t0 =>
      cases acc with
      | none =>
        rw [bestEdgeGo, htt] at h
        obtain ⟨hmem, hbound, hacc⟩ := ih (some (t0, e0)) t ed h
        have hle : t ≤ t0 := hacc t0 e0 rfl
        refine ⟨?_, ?_, by simp⟩
        · rcases hmem with h1 | ⟨h1, h2⟩
          · cases h1
            exact Or.inr ⟨List.mem_cons_self _ _, htt⟩
          · exact Or.inr ⟨List.mem_cons_of_mem _ h1, h2⟩
        · intro e2 he2 t2 ht2
          rcases List.mem_cons.mp he2 with rfl | he2
          · rw [htt] at ht2
            cases ht2
            exact hle
          · exact hbound e2 he2 t2 ht2
      | some mi =>
        obtain ⟨bt, be⟩ := mi
        simp only [bestEdgeGo, htt] at h
        by_cases hlt : t0 < bt
        · rw [if_pos hlt] at h
          obtain ⟨hmem, hbound, hacc⟩ := ih (some (t0, e0)) t ed h
          have hle : t ≤ t0 := hacc t0 e0 rfl
          refine ⟨?_, ?_, ?_⟩
          · rcases hmem with h1 | ⟨h1, h2⟩
            · cases h1
              exact Or.inr ⟨List.mem_cons_self _ _, htt⟩
            · exact Or.inr ⟨List.mem_cons_of_mem _ h1, h2⟩
          · intro e2 he2 t2 ht2
            rcases List.mem_cons.mp he2 with rfl | he2
            · rw [htt] at ht2
              cases ht2
              exact hle
            · exact hbound e2 he2 t2 ht2
          · intro bt2 be2 hacc2
            cases hacc2
            exact le_of_lt (lt_of_le_of_lt hle hlt)
        · rw [if_neg hlt] at h
          obtain ⟨hmem, hbound, hacc⟩ := ih (some (bt, be)) t ed h
          have hle : t ≤ bt := hacc bt be rfl
          have hle0 : t ≤ t0 := le_trans hle (le_of_not_lt hlt)
          refine ⟨?_, ?_, ?_⟩
          · rcases hmem with h1 | ⟨h1, h2⟩
            · exact Or.inl h1
            · exact Or.inr ⟨List.mem_cons_of_mem _ h1, h2⟩
          · intro e2 he2 t2 ht2
            rcases List.mem_cons.mp he2 with rfl | he2
            · rw [htt] at ht2
              cases ht2
              exact hle0
            · exact hbound e2 he2 t2 ht2
          · intro bt2 be2 hacc2
            cases hacc2
            exact hle

theorem sum_route_foldl (g : ℕ → ℕ → List EdgeData) (route : List ℕ) :
    sum_route_time_and_length g route =
      (((route.zip route.tail).map fun uv => (hopContrib (g uv.1 uv.2)).1).sum,
       ((route.zip route.tail).map fun uv => (hopContrib (g uv.1 uv.2)).2).sum) := by
  unfold sum_route_time_and_length
  generalize route.zip route.tail = hops
  have hgen : ∀ (l : List (ℕ × ℕ)) (a b : ℚ),
      l.foldl (fun acc uv =>
        ((acc.1 + (hopContrib (g uv.1 uv.2)).1 : ℚ),
         (acc.2 + (hopContrib (g uv.1 uv.2)).2 : ℚ))) (a, b) =
      (a + (l.map fun uv => (hopContrib (g uv.1 uv.2)).1).sum,
       b + (l.map fun uv => (hopContrib (g uv.1 uv.2)).2).sum) := by
    intro l
    induction l with
    | nil => intro a b; simp
    | cons uv rest ih =>
      intro a b
      simp only [List.foldl_cons, List.map_cons, List.sum_cons, ih]
      ring_nf
  simpa using hgen hops 0 0

/-! C7: route time and length summation. -/

/-- C7 (amended): summing a route picks, for each hop with edge data, the
parallel edge with the minimum defined travel time (contributing that time
and that edge length); when no parallel edge of the hop carries a travel
time it falls back to the first edge, attributing time 0 but that edge
actual length (0 only when the length too is missing); a hop without edge
data contributes nothing. -/
theorem C7_thm (g : ℕ → ℕ → List EdgeData) (route : List ℕ) :
    (sum_route_time_and_length g route =
      (((route.zip route.tail).map fun uv => (hopContrib (g uv.1 uv.2)).1).sum,
       ((route.zip route.tail).map fun uv => (hopContrib (g uv.1 uv.2)).2).sum)) ∧
    (∀ data t ed, bestEdge data = some (t, ed) →
      ed ∈ data ∧ ed.travel_time = some t ∧
        (∀ ed2 ∈ data, ∀ t2, ed2.travel_time = some t2 → t ≤ t2) ∧
        hopContrib data = (t, optOrZero ed.length)) ∧
    (∀ data, bestEdge data = none ↔ ∀ ed ∈ data, ed.travel_time = none) ∧
    (∀ ed0 rest, bestEdge (ed0 :: rest) = none →
      hopContrib (ed0 :: rest) = (0, optOrZero ed0.length)) ∧
    hopContrib [] = (0, 0) := by
  refine ⟨sum_route_foldl g route, ?_, ?_, ?_, rfl⟩
  · intro data t ed h
    obtain ⟨hmem, hbound, -⟩ := bestEdgeGo_some data none t ed h
    have hmem2 : ed ∈ data ∧ ed.travel_time = some t := by
      rcases hmem with h1 | h1
      · cases h1
      · exact h1
    refine ⟨hmem2.1, hmem2.2, hbound, ?_⟩
    match data, hmem2.1 with
    | e0 :: rest, _ => simp only [hopContrib, bestEdge] at h ⊢; rw [h]
  · intro data
    rw [bestEdge, bestEdgeGo_eq_none_iff]
    simp
  · intro ed0 rest h
    have hall := (bestEdgeGo_eq_none_iff (ed0 :: rest) none).mp h
    have h0 : ed0.travel_time = none := hall.2 ed0 (List.mem_cons_self _ _)
    simp only [hopContrib]
    rw [show bestEdge (ed0 :: rest) = none from h, h0]
    rfl

/-- C7 counterexample: a hop whose single parallel edge has no travel time
but length 700 m contributes length 700, not the length 0 the claim says
the fallback attributes. -/
theorem C7_counterexample :
    sum_route_time_and_length
      (fun u v => if u = 0 ∧ v = 1
        then [{ travel_time := none, length := some 700 }] else []) [0, 1] =
      (0, 700) ∧
    sum_route_time_and_length
      (fun u v => if u = 0 ∧ v = 1
        then [{ travel_time := none, length := some 700 }] else []) [0, 1] ≠
      (0, 0) := by
  have h : sum_route_time_and_length
      (fun u v => if u = 0 ∧ v = 1
        then [{ travel_time := none, length := some 700 }] else []) [0, 1] =
      (0, 700) := by
    simp [sum_route_time_and_length, hopContrib, bestEdge, bestEdgeGo, optOrZero]
  refine ⟨h, ?_⟩
  rw [h]
  simp

/-- C7 witness: with two parallel edges of times 5 and 3, the hop
contributes the minimum time 3 together with the length of that edge. -/
theorem C7_witness :
    sum_route_time_and_length
      (fun u v => if u = 0 ∧ v = 1
        then [{ travel_time := some 5, length := some 10 },
              { travel_time := some 3, length := some 20 }] else []) [0, 1] =
      (3, 20) := by
  have h := (C7_thm
    (fun u v => if u = 0 ∧ v = 1
      then [{ travel_time := some 5, length := some 10 },
            { travel_time := some 3, length := some 20 }] else []) [0, 1]).1
  rw [h]
  norm_num [hopContrib, bestEdge, bestEdgeGo, optOrZero]

/-! Nearest-node scan lemmas. -/

theorem nodeDist_eq_none_iff (dist : ℚ → ℚ → ℚ) (n : Node) :
    nodeDist dist n = none ↔ n.x = none ∨ n.y = none := by
  cases hx : n.x <;> cases hy : n.y <;> simp [nodeDist, hx, hy]

theorem nodeDist_some (dist : ℚ → ℚ → ℚ) (n : Node) (x y : ℚ)
    (hx : n.x = some x) (hy : n.y = some y) :
    nodeDist dist n = some (dist x y) := by
  simp [nodeDist, hx, hy]

theorem scanNodes_eq_none_iff (dist : ℚ → ℚ → ℚ) (l : List Node) :
    ∀ acc, scanNodes dist l acc = none ↔
      acc = none ∧ ∀ n ∈ l, nodeDist dist n = none := by
  induction l with
  | nil => intro acc; simp [scanNodes]
  | cons n rest ih =>
    intro acc
    cases hnd : nodeDist dist n with
    | none =>
      simp only [scanNodes, hnd, ih, List.mem_cons]
      constructor
      · rintro ⟨h1, h2⟩
        exact ⟨h1, fun u hu => hu.elim (fun h => h ▸ hnd) (h2 u)⟩
      · rintro ⟨h1, h2⟩
        exact ⟨h1, fun u hu => h2 u (Or.inr hu)⟩
    | some d =>
      cases acc with
      | none =>
        simp only [scanNodes, hnd, ih]
        constructor
        · rintro ⟨h1, -⟩
          exact absurd h1 (by simp)
        · rintro ⟨-, h2⟩
          have hx := h2 n (List.mem_cons_self _ _)
          rw [hnd] at hx
          cases hx
      | some mi =>
        obtain ⟨m, i⟩ := mi
        simp only [scanNodes, hnd]
        by_cases hlt : d < m
        · rw [if_pos hlt]
          simp only [ih]
          constructor
          · rintro ⟨h1, -⟩
            exact absurd h1 (by simp)
          · rintro ⟨h1, -⟩
            exact absurd h1 (by simp)
        · rw [if_neg hlt]
          simp only [ih]
          constructor
          · rintro ⟨h1, -⟩
            exact absurd h1 (by simp)
          · rintro ⟨h1, -⟩
            exact absurd h1 (by simp)

theorem scanNodes_some (dist : ℚ → ℚ → ℚ) (l : List Node) :
    ∀ acc m i, scanNodes dist l acc = some (m, i) →
      (acc = some (m, i) ∨ ∃ n ∈ l, nodeDist dist n = some m ∧ n.id = i) ∧
      (∀ n ∈ l, ∀ d, nodeDist dist n = some d → m ≤ d) ∧
      (∀ m0 i0, acc = some (m0, i0) → m ≤ m0) := by
  induction l with
  | nil =>
    intro acc m i h
    refine ⟨Or.inl h, by simp, ?_⟩
    intro m0 i0 hacc
    rw [hacc] at h
    cases h
    rfl
  | cons n rest ih =>
    intro acc m i h
    cases hnd : nodeDist dist n with
    | none =>
      simp only [scanNodes, hnd] at h
      obtain ⟨hmem, hbound, hacc⟩ := ih acc m i h
      refine ⟨?_, ?_, hacc⟩
      · rcases hmem with h1 | ⟨u, hu, h2⟩
        · exact Or.inl h1
        · exact Or.inr ⟨u, List.mem_cons_of_mem _ hu, h2⟩
      · intro u hu d hd
        rcases List.mem_cons.mp hu with rfl | hu
        · rw [hnd] at hd
          cases hd
        · exact hbound u hu d hd
    | some d =>
      cases acc with
      | none =>
        simp only [scanNodes, hnd] at h
        obtain ⟨hmem, hbound, hacc⟩ := ih (some (d, n.id)) m i h
        have hle : m ≤ d := hacc d n.id rfl
        refine ⟨?_, ?_, by simp⟩
        · rcases hmem with h1 | ⟨u, hu, h2⟩
          · cases h1
            exact Or.inr ⟨n, List.mem_cons_self _ _, hnd, rfl⟩
          · exact Or.inr ⟨u, List.mem_cons_of_mem _ hu, h2⟩
        · intro u hu d2 hd2
          rcases List.mem_cons.mp hu with rfl | hu
          · rw [hnd] at hd2
            cases hd2
            exact hle
          · exact hbound u hu d2 hd2
      | some mi =>
        obtain ⟨m0, i0⟩ := mi
        simp only [scanNodes, hnd] at h
        by_cases hlt : d < m0
        · rw [if_pos hlt] at h
          obtain ⟨hmem, hbound, hacc⟩ := ih (some (d, n.id)) m i h
          have hle : m ≤ d := hacc d n.id rfl
          refine ⟨?_, ?_, ?_⟩
          · rcases hmem with h1 | ⟨u, hu, h2⟩
            · cases h1
              exact Or.inr ⟨n, List.mem_cons_self _ _, hnd, rfl⟩
            · exact Or.inr ⟨u, List.mem_cons_of_mem _ hu, h2⟩
          · intro u hu d2 hd2
            rcases List.mem_cons.mp hu with rfl | hu
            · rw [hnd] at hd2
              cases hd2
              exact hle
            · exact hbound u hu d2 hd2
          · intro m1 i1 hacc1
            cases hacc1
            exact le_of_lt (lt_of_le_of_lt hle hlt)
        · rw [if_neg hlt] at h
          obtain ⟨hmem, hbound, hacc⟩ := ih (some (m0, i0)) m i h
          have hle : m ≤ m0 := hacc m0 i0 rfl
          refine ⟨?_, ?_, ?_⟩
          · rcases hmem with h1 | ⟨u, hu, h2⟩
            · exact Or.inl h1
            · exact Or.inr ⟨u, List.mem_cons_of_mem _ hu, h2⟩
          · intro u hu d2 hd2
            rcases List.mem_cons.mp hu with rfl | hu
            · rw [hnd] at hd2
              cases hd2
              exact le_trans hle (le_of_not_lt hlt)
            · exact hbound u hu d2 hd2
          · intro m1 i1 hacc1
            cases hacc1
            exact hle

theorem scanNodes_keep (dist : ℚ → ℚ → ℚ) :
    ∀ (l : List Node) (m : ℚ) (i : ℕ),
      (∀ n ∈ l, ∀ d, nodeDist dist n = some d → m ≤ d) →
      scanNodes dist l (some (m, i)) = some (m, i) := by
  intro l
  induction l with
  | nil =>
    intro m i _
    rfl
  | cons n rest ih =>
    intro m i h
    cases hnd : nodeDist dist n with
    | none =>
      simp only [scanNodes, hnd]
      exact ih m i (fun u hu => h u (List.mem_cons_of_mem _ hu))
    | some d =>
      have hle : m ≤ d := h n (List.mem_cons_self _ _) d hnd
      simp only [scanNodes, hnd]
      rw [if_neg (not_lt.mpr hle)]
      exact ih m i (fun u hu => h u (List.mem_cons_of_mem _ hu))

theorem scanNodes_first (dist : ℚ → ℚ → ℚ) (n : Node) (l₂ : List Node)
    (d : ℚ) (hd : nodeDist dist n = some d)
    (h₂ : ∀ u ∈ l₂, ∀ du, nodeDist dist u = some du → d ≤ du) :
    ∀ (l₁ : List Node),
      (∀ u ∈ l₁, ∀ du, nodeDist dist u = some du → d < du) →
      ∀ acc, (acc = none ∨ ∃ m0 i0, acc = some (m0, i0) ∧ d < m0) →
      scanNodes dist (l₁ ++ n :: l₂) acc = some (d, n.id) := by
  intro l₁
  induction l₁ with
  | nil =>
    intro _ acc hacc
    rcases hacc with rfl | ⟨m0, i0, rfl, hlt⟩
    · simp only [List.nil_append, scanNodes, hd]
      exact scanNodes_keep dist l₂ d n.id h₂
    · simp only [List.nil_append, scanNodes, hd]
      rw [if_pos hlt]
      exact scanNodes_keep dist l₂ d n.id h₂
  | cons u l₁ ih =>
    intro h₁ acc hacc
    have hrest : ∀ v ∈ l₁, ∀ dv, nodeDist dist v = some dv → d < dv :=
      fun v hv => h₁ v (List.mem_cons_of_mem _ hv)
    cases hnd : nodeDist dist u with
    | none =>
      simp only [List.cons_append, scanNodes, hnd]
      exact ih hrest acc hacc
    | some du =>
      have hlt : d < du := h₁ u (List.mem_cons_self _ _) du hnd
      rcases hacc with rfl | ⟨m0, i0, rfl, hlt0⟩
      · simp only [List.cons_append, scanNodes, hnd]
        exact ih hrest (some (du, u.id)) (Or.inr ⟨du, u.id, rfl, hlt⟩)
      · simp only [List.cons_append, scanNodes, hnd]
        by_cases hcmp : du < m0
        · rw [if_pos hcmp]
          exact ih hrest (some (du, u.id)) (Or.inr ⟨du, u.id, rfl, hlt⟩)
        · rw [if_neg hcmp]
          exact ih hrest (some (m0, i0)) (Or.inr ⟨m0, i0, rfl, hlt0⟩)

/-! C3: nearest-node resolution. -/

/-- C3: `find_nearest_node` returns `none` exactly when no node carries
both coordinates; when it returns an id, that id belongs to a node with
valid coordinates whose distance to the query point is at most the
distance of every node with valid coordinates; and on exact ties the first
minimal node encountered in iteration order is returned deterministically.
Stated for an arbitrary per-node distance function, hence in particular
for the haversine distance with Earth radius 6371000 m computed by the
source. -/
theorem C3_thm (dist : ℚ → ℚ → ℚ) (nodes : List Node) :
    (find_nearest_node dist nodes = none ↔
      ∀ n ∈ nodes, n.x = none ∨ n.y = none) ∧
    (∀ i, find_nearest_node dist nodes = some i →
      ∃ n ∈ nodes, ∃ x y, n.x = some x ∧ n.y = some y ∧ n.id = i ∧
        ∀ u ∈ nodes, ∀ ux uy, u.x = some ux → u.y = some uy →
          dist x y ≤ dist ux uy) ∧
    (∀ (l₁ : List Node) (n : Node) (l₂ : List Node) (x y : ℚ),
      nodes = l₁ ++ n :: l₂ → n.x = some x → n.y = some y →
      (∀ u ∈ l₁, ∀ ux uy, u.x = some ux → u.y = some uy →
        dist x y < dist ux uy) →
      (∀ u ∈ l₂, ∀ ux uy, u.x = some ux → u.y = some uy →
        dist x y ≤ dist ux uy) →
      find_nearest_node dist nodes = some n.id) := by
  refine ⟨?_, ?_, ?_⟩
  · unfold find_nearest_node
    rw [Option.map_eq_none', scanNodes_eq_none_iff dist nodes none]
    simp only [true_and]
    constructor
    · intro h n hn
      rw [← nodeDist_eq_none_iff dist]
      exact h n hn
    · intro h n hn
      rw [nodeDist_eq_none_iff dist]
      exact h n hn
  · intro i h
    unfold find_nearest_node at h
    obtain ⟨⟨m, i2⟩, hscan, hsnd⟩ := Option.map_eq_some'.mp h
    simp only at hsnd
    subst hsnd
    obtain ⟨hmem, hbound, -⟩ := scanNodes_some dist nodes none m i2 hscan
    rcases hmem with h1 | ⟨n, hn, hndist, hid⟩
    · cases h1
    · cases hx : n.x with
      | none =>
        rw [(nodeDist_eq_none_iff dist n).mpr (Or.inl hx)] at hndist
        cases hndist
      | some x =>
        cases hy : n.y with
        | none =>
          rw [(nodeDist_eq_none_iff dist n).mpr (Or.inr hy)] at hndist
          cases hndist
        | some y =>
          rw [nodeDist_some dist n x y hx hy] at hndist
          have hdxy : dist x y = m := Option.some.inj hndist
          refine ⟨n, hn, x, y, hx, hy, hid, ?_⟩
          intro u hu ux uy hux huy
          rw [hdxy]
          exact hbound u hu (dist ux uy) (nodeDist_some dist u ux uy hux huy)
  · intro l₁ n l₂ x y hsplit hx hy h₁ h₂
    subst hsplit
    have hd : nodeDist dist n = some (dist x y) := nodeDist_some dist n x y hx hy
    have h₂d : ∀ u ∈ l₂, ∀ du, nodeDist dist u = some du → dist x y ≤ du := by
      intro u hu du hdu
      cases hux : u.x with
      | none =>
        rw [(nodeDist_eq_none_iff dist u).mpr (Or.inl hux)] at hdu
        cases hdu
      | some ux =>
        cases huy : u.y with
        | none =>
          rw [(nodeDist_eq_none_iff dist u).mpr (Or.inr huy)] at hdu
          cases hdu
        | some uy =>
          rw [nodeDist_some dist u ux uy hux huy] at hdu
          cases hdu
          exact h₂ u hu ux uy hux huy
    have h₁d : ∀ u ∈ l₁, ∀ du, nodeDist dist u = some du → dist x y < du := by
      intro u hu du hdu
      cases hux : u.x with
      | none =>
        rw [(nodeDist_eq_none_iff dist u).mpr (Or.inl hux)] at hdu
        cases hdu
      | some ux =>
        cases huy : u.y with
        | none =>
          rw [(nodeDist_eq_none_iff dist u).mpr (Or.inr huy)] at hdu
          cases hdu
        | some uy =>
          rw [nodeDist_some dist u ux uy hux huy] at hdu
          cases hdu
          exact h₁ u hu ux uy hux huy
    unfold find_nearest_node
    rw [scanNodes_first dist n l₂ (dist x y) hd h₂d l₁ h₁d none (Or.inl rfl)]
    rfl

/-- C3 witness: among an invalid node, a node at distance 7 and a node at
distance 0 (distance function taken as the coordinate sum), the node with
the smallest distance is returned. -/
theorem C3_witness :
    find_nearest_node (fun a b => a + b)
      [⟨0, none, some 1⟩, ⟨1, some 3, some 4⟩, ⟨2, some 0, some 0⟩] =
      some 2 := by
  apply (C3_thm (fun a b => a + b)
    [⟨0, none, some 1⟩, ⟨1, some 3, some 4⟩, ⟨2, some 0, some 0⟩]).2.2
    [⟨0, none, some 1⟩, ⟨1, some 3, some 4⟩] ⟨2, some 0, some 0⟩ [] 0 0
    rfl rfl rfl
  · intro u hu ux uy hx hy
    rcases List.mem_cons.mp hu with rfl | hu
    · cases hx
    · rcases List.mem_cons.mp hu with rfl | hu
      · cases hx
        cases hy
        norm_num
      · cases hu
  · intro u hu
    cases hu

/-! Walk lemmas for the single-edge scenario. -/

theorem walk_singleEdge_bound :
    ∀ a b t, Walk [WeightedEdge.mk 1 2 500 (some 2)] a b t →
      0 ≤ t ∧ (a ≠ b → 2 ≤ t) := by
  intro a b t h
  induction h with
  | nil a => exact ⟨le_refl 0, fun hc => absurd rfl hc⟩
  | cons e he hw h ih =>
    rw [List.mem_singleton] at he
    subst he
    obtain rfl : (2 : ℚ) = _ := Option.some.inj hw
    have h0 : (0 : ℚ) ≤ _ := ih.1
    constructor
    · linarith
    · intro _
      linarith

/-! C6: the 1000 m / 30 km/h scenario. -/

/-- C6: 30 km/h converts to exactly 500 m/min; on a station directly
connected to a target by a single edge of length 1000 m whose road class
(residential, tier 3) carries the 30 km/h tier of the profile, the edge
travel time becomes 1000/500 and the shortest-path travel time from the
station node 1 to the target node 2 is exactly 2.0 minutes. -/
theorem C6_thm :
    kmh_to_mm 30 = 500 ∧
    set_graph_travel_times [49, 37, 30, 16, 5] (some kmh_to_mm)
      singleEdgeGraph = Except.ok [WeightedEdge.mk 1 2 500 (some 2)] ∧
    shortestTime [WeightedEdge.mk 1 2 500 (some 2)] 1 2 2 := by
  have h30 : kmh_to_mm 30 = 500 := by
    unfold kmh_to_mm
    rw [show (30 : ℚ) * 1000 / 60 = ((500 : ℤ) : ℚ) by norm_num, pyRound_int]
    norm_num
  refine ⟨h30, ?_, ?_, ?_⟩
  · simp only [set_graph_travel_times, singleEdgeGraph, List.map_cons,
      List.map_nil, weightEdgeGU, edgeSpeed, speedOfTag, travelTimeGU, h30]
    norm_num [List.getD]
  · have hw : Walk [WeightedEdge.mk 1 2 500 (some 2)] 1 2 (2 + 0) :=
      Walk.cons (WeightedEdge.mk 1 2 500 (some 2))
        (List.mem_singleton.mpr rfl) rfl (Walk.nil 2)
    simpa using hw
  · intro t hwk
    exact (walk_singleEdge_bound 1 2 t hwk).2 (by norm_num)

end ArrivalCalc
